import Mathlib

/-!
Verification of the trie-based spell checker (`src/spellchecker/src/main.rs`).

The Rust program stores a corpus of words in a prefix tree (`Trie`) whose
nodes carry a terminal count (word frequency) and a map from characters to
child nodes, and corrects a query word by a bounded recursive search
(`search_with_k_edit`) that explores exact matches plus the four edit
operations (insertion, deletion, substitution, adjacent transposition),
keeping the best candidate (fewest edits, then highest frequency) in a
mutable accumulator (`CheckResult`) with an initial edit budget of 2.

The embedding below is a direct translation:
* Rust's `HashMap<char, Trie>` becomes an association list
  `List (Char × Trie)`; the Rust hash map's iteration order is unspecified,
  here it is first-insertion order (new keys are appended at the end).
* The mutable accumulator becomes explicit state passing.
* The recursion of `search_with_k_edit` is made structural on an explicit
  fuel parameter; running out of fuel yields `none`.  A theorem below shows
  that the fuel chosen by `check_spelling` (trie size + query length + 1)
  always suffices, so the fuelled function is a faithful total rendering of
  the Rust recursion.
-/

set_option maxHeartbeats 1000000

namespace Spell

/-- Trie node: terminal count plus children, as in the Rust `struct Trie`.
The children association list stands for the Rust `HashMap<char, Trie>`. -/
inductive Trie where
  | mk : Nat → List (Char × Trie) → Trie

/-- The `count` field of a trie node. -/
def Trie.count : Trie → Nat
  | .mk n _ => n

/-- The `children` field of a trie node. -/
def Trie.children : Trie → List (Char × Trie)
  | .mk _ cs => cs

/-- Rust `Trie::new()`: empty node, count 0, no children. -/
def Trie.new : Trie := .mk 0 []

/-- Rust `HashMap::get`: first entry with the given key, if any. -/
def lookupChild : List (Char × Trie) → Char → Option Trie
  | [], _ => none
  | (d, u) :: rest, c => if d = c then some u else lookupChild rest c

/-- Rust `HashMap::entry(c).or_insert(Trie::new())` followed by applying `f` to
the entry: updates the first entry with key `c`, or appends a new entry
`(c, f Trie.new)` when the key is absent. -/
def updChildren : List (Char × Trie) → Char → (Trie → Trie) → List (Char × Trie)
  | [], c, f => [(c, f Trie.new)]
  | (d, u) :: rest, c, f => if d = c then (d, f u) :: rest else (d, u) :: updChildren rest c f

/-- Rust `Trie::insert` (path-first currying so the recursion is structural on
the path): empty path increments this node's count, otherwise recurse into
the child for the first character, creating it if needed. -/
def insertW : List Char → Trie → Trie
  | [], t => .mk (t.count + 1) t.children
  | c :: rest, t => .mk t.count (updChildren t.children c (insertW rest))

/-- Rust `Trie::insert(path)`. -/
def Trie.insert (t : Trie) (path : List Char) : Trie := insertW path t

/-- Rust `Trie::search`: true iff the full path exists and ends at a node with
nonzero count. -/
def Trie.search : Trie → List Char → Bool
  | t, [] => match t.count with
    | 0 => false
    | _ + 1 => true
  | t, c :: rest => match lookupChild t.children c with
    | some u => u.search rest
    | none => false

/-- Observer (not in the source): the node reached by walking `path`. -/
def Trie.follow : Trie → List Char → Option Trie
  | t, [] => some t
  | t, c :: rest => match lookupChild t.children c with
    | some u => u.follow rest
    | none => none

/-- Observer: the terminal count recorded for `w` (0 when the path is absent). -/
def countAt (t : Trie) (w : List Char) : Nat :=
  match t.follow w with
  | some m => m.count
  | none => 0

mutual

/-- Size of a trie (number of nodes); used as a fuel bound for the search. -/
def Trie.size : Trie → Nat
  | .mk _ cs => 1 + sizeChildren cs

/-- Total size of a list of child tries. -/
def sizeChildren : List (Char × Trie) → Nat
  | [] => 0
  | (_, t) :: rest => t.size + sizeChildren rest

end

/-- Building a dictionary from a list of corpus words, one `insert` each
(as `read_n_train_model` does after tokenizing). -/
def buildTrie (ws : List (List Char)) : Trie := ws.foldl Trie.insert Trie.new

/-- The Rust `struct CheckResult` accumulator. -/
structure CheckResult where
  word : Option (List Char)
  count : Nat
  edit : Nat
deriving DecidableEq

/-- Option-threading fold over the children list, used for the two Rust
`for (ch, sub) in &node.children` loops of `search_with_k_edit`. -/
def childFold {σ : Type} (f : Char → Trie → σ → Option σ) : List (Char × Trie) → σ → Option σ
  | [], s => some s
  | (ch, sub) :: rest, s =>
    match f ch sub s with
    | some s2 => childFold f rest s2
    | none => none

/-- Rust `search_with_k_edit`, with explicit fuel (first
argument) and explicit accumulator threading; `none` means the fuel ran
out.  Branch order matches the Rust body exactly: exact match, pruning
check, deletion, transposition, then per child insertion and replacement. -/
def search_with_k_edit : Nat → Trie → List Char → List Char → Nat → CheckResult → Option CheckResult
  | 0, _, _, _, _, _ => none
  | fuel + 1, node, to_go, path, k, check =>
    match to_go with
    | [] =>
      if (k < check.edit ∧ 0 < node.count) ∨ (check.count < node.count ∧ k = check.edit) then
        some ⟨some path, node.count, k⟩
      else
        childFold (fun ch sub acc => search_with_k_edit fuel sub [] (path ++ [ch]) (k + 1) acc)
          node.children check
    | c :: rest =>
      match (match lookupChild node.children c with
             | some sub => search_with_k_edit fuel sub rest (path ++ [c]) k check
             | none => some check) with
      | none => none
      | some check1 =>
        if check1.edit ≤ k then some check1
        else
          match search_with_k_edit fuel node rest path (k + 1) check1 with
          | none => none
          | some check2 =>
            match (match rest with
                   | [] => some check2
                   | c1 :: rest2 =>
                     match lookupChild node.children c1 with
                     | some sub =>
                       search_with_k_edit fuel sub (c :: rest2) (path ++ [c1]) (k + 1) check2
                     | none => some check2) with
            | none => none
            | some check3 =>
              childFold (fun ch sub acc =>
                  match search_with_k_edit fuel sub (c :: rest) (path ++ [ch]) (k + 1) acc with
                  | some mid => search_with_k_edit fuel sub rest (path ++ [ch]) (k + 1) mid
                  | none => none)
                node.children check3

/-- Fuel that (provably, see the termination theorem) always suffices. -/
def searchFuel (trie : Trie) (word : List Char) : Nat :=
  trie.size + word.length + 1

/-- Rust `check_spelling`, but returning the whole final accumulator. -/
def check_spelling_full (trie : Trie) (word : List Char) : CheckResult :=
  (search_with_k_edit (searchFuel trie word) trie word [] 0 ⟨none, 0, 2⟩).getD ⟨none, 0, 2⟩

/-- Rust `check_spelling`: best correction, or `none`. -/
def check_spelling (trie : Trie) (word : List Char) : Option (List Char) :=
  (check_spelling_full trie word).word

/-- Instrumented copy of `search_with_k_edit` that additionally logs, in
order, the edit count `k` of every invocation it makes (the accumulator
component `.1` is threaded exactly as in `search_with_k_edit`).  It is used
to state claims about which states the search visits, which the plain
result does not reveal. -/
def search_with_k_edit_klog : Nat → Trie → List Char → List Char → Nat →
    CheckResult × List Nat → Option (CheckResult × List Nat)
  | 0, _, _, _, _, _ => none
  | fuel + 1, node, to_go, path, k, st =>
    let check := st.1
    let ks := st.2 ++ [k]
    match to_go with
    | [] =>
      if (k < check.edit ∧ 0 < node.count) ∨ (check.count < node.count ∧ k = check.edit) then
        some (⟨some path, node.count, k⟩, ks)
      else
        childFold
          (fun ch sub acc => search_with_k_edit_klog fuel sub [] (path ++ [ch]) (k + 1) acc)
          node.children (check, ks)
    | c :: rest =>
      match (match lookupChild node.children c with
             | some sub => search_with_k_edit_klog fuel sub rest (path ++ [c]) k (check, ks)
             | none => some (check, ks)) with
      | none => none
      | some st1 =>
        if st1.1.edit ≤ k then some st1
        else
          match search_with_k_edit_klog fuel node rest path (k + 1) st1 with
          | none => none
          | some st2 =>
            match (match rest with
                   | [] => some st2
                   | c1 :: rest2 =>
                     match lookupChild node.children c1 with
                     | some sub =>
                       search_with_k_edit_klog fuel sub (c :: rest2) (path ++ [c1]) (k + 1) st2
                     | none => some st2) with
            | none => none
            | some st3 =>
              childFold (fun ch sub acc =>
                  match search_with_k_edit_klog fuel sub (c :: rest) (path ++ [ch]) (k + 1) acc with
                  | some mid => search_with_k_edit_klog fuel sub rest (path ++ [ch]) (k + 1) mid
                  | none => none)
                node.children st3

/-- The body of the rendering loop of `write_correct_words`: the correction
is first defaulted to `"-"` (`unwrap_or`), then compared with the word. -/
def render_pair (w : List Char) (r : Option (List Char)) : List Char :=
  let correction := r.getD ['-']
  if correction = w then w else w ++ [',', ' '] ++ correction

/-- Rust `write_correct_words`: one newline-terminated rendered line per
query word, in input order. -/
def write_correct_words (words : List (List Char)) (trie : Trie) : List Char :=
  (words.map (fun w => render_pair w (check_spelling trie w) ++ ['\n'])).flatten

/-- One edit operation of the specification on words: insertion of a
letter at any position, deletion of one letter, replacement of one letter
with another letter, or transposition of two neighboring letters. -/
inductive EditStep : List Char → List Char → Prop where
  | ins (u v : List Char) (c : Char) : EditStep (u ++ v) (u ++ c :: v)
  | del (u v : List Char) (c : Char) : EditStep (u ++ c :: v) (u ++ v)
  | repl (u v : List Char) (c d : Char) : c ≠ d → EditStep (u ++ c :: v) (u ++ d :: v)
  | swap (u v : List Char) (c d : Char) : EditStep (u ++ c :: d :: v) (u ++ d :: c :: v)

/-- The word `y` is reachable from `x` by at most `n` edit operations,
i.e. the edit distance from `x` to `y` is at most `n`. -/
inductive EditsWithin : Nat → List Char → List Char → Prop where
  | refl (n : Nat) (w : List Char) : EditsWithin n w w
  | step {n : Nat} {w x y : List Char} : EditStep w x → EditsWithin n x y → EditsWithin (n + 1) w y

/-- Corpus with the single word "an". -/
def trieAN : Trie := buildTrie [['a', 'n']]

/-- Corpus with "ape" at frequency 1 and "apple" at frequency 2, "ape" inserted first. -/
def trieApe : Trie :=
  buildTrie [['a', 'p', 'e'], ['a', 'p', 'p', 'l', 'e'], ['a', 'p', 'p', 'l', 'e']]

/-- Corpus with "ape" at frequency 1 and "apple" at frequency 2, "apple" inserted first. -/
def trieApe2 : Trie :=
  buildTrie [['a', 'p', 'p', 'l', 'e'], ['a', 'p', 'p', 'l', 'e'], ['a', 'p', 'e']]

/-- Corpus with the single word "banana". -/
def trieBanana : Trie := buildTrie [['b', 'a', 'n', 'a', 'n', 'a']]

/-- Corpus with the single word "aaa". -/
def trieAAA : Trie := buildTrie [['a', 'a', 'a']]

/-- Well-formedness inherited from the Rust `HashMap`: in every node the
child keys are pairwise distinct, recursively.  Every trie the program
builds has this property; the association-list model can also express
duplicate keys, which a hash map cannot, so trie-wide invariants assume
it. -/
inductive WF : Trie → Prop where
  | mk : ∀ (n : Nat) (cs : List (Char × Trie)), (cs.map Prod.fst).Nodup →
      (∀ ch sub, (ch, sub) ∈ cs → WF sub) → WF (.mk n cs)

/-- How the accumulator may evolve across a call of `search_with_k_edit`:
the best edit count never increases, and the record either stays put or is
replaced by a candidate word with strictly fewer edits, or with equal
edits and strictly larger terminal count; any newly recorded candidate has
positive terminal count. -/
def Replaces (old new : CheckResult) : Prop :=
  new.edit ≤ old.edit ∧
    (new = old ∨ ∃ w, new.word = some w ∧ 0 < new.count ∧
      (new.edit < old.edit ∨ (new.edit = old.edit ∧ old.count < new.count)))

/-- Soundness invariant of the accumulator relative to the dictionary
`root` and the query: the best edit count is within the initial budget 2,
and the recorded word, if any, is a corpus word within that many edit
operations of the query. -/
def Sound (root : Trie) (query : List Char) (check : CheckResult) : Prop :=
  check.edit ≤ 2 ∧
    ∀ w, check.word = some w → root.search w = true ∧ EditsWithin check.edit query w

/-! Basic lemmas about the trie operations. -/

@[simp]
theorem Trie.children_mk (n : Nat) (cs : List (Char × Trie)) : (Trie.mk n cs).children = cs :=
  rfl

@[simp]
theorem Trie.count_mk (n : Nat) (cs : List (Char × Trie)) : (Trie.mk n cs).count = n :=
  rfl

theorem countAt_nil (t : Trie) : countAt t [] = t.count := by
  cases t
  rfl

theorem countAt_cons_some {cs : List (Char × Trie)} {d : Char} {u : Trie} {n : Nat}
    (h : lookupChild cs d = some u) (w : List Char) :
    countAt (.mk n cs) (d :: w) = countAt u w := by
  simp only [countAt, Trie.follow, Trie.children_mk, h]

theorem countAt_cons_none {cs : List (Char × Trie)} {d : Char} {n : Nat}
    (h : lookupChild cs d = none) (w : List Char) :
    countAt (.mk n cs) (d :: w) = 0 := by
  simp only [countAt, Trie.follow, Trie.children_mk, h]

theorem countAt_new (w : List Char) : countAt Trie.new w = 0 := by
  cases w with
  | nil => rfl
  | cons c rest => rfl

theorem lookupChild_upd_self (cs : List (Char × Trie)) (c : Char) (f : Trie → Trie) :
    lookupChild (updChildren cs c f) c = some (f ((lookupChild cs c).getD Trie.new)) := by
  induction cs with
  | nil => simp [updChildren, lookupChild]
  | cons p rest ih =>
    obtain ⟨d, u⟩ := p
    by_cases h : d = c
    · subst h
      simp [updChildren, lookupChild]
    · simp [updChildren, lookupChild, h, ih]

theorem lookupChild_upd_other (cs : List (Char × Trie)) {c d : Char} (f : Trie → Trie)
    (hdc : d ≠ c) :
    lookupChild (updChildren cs c f) d = lookupChild cs d := by
  induction cs with
  | nil => simp [updChildren, lookupChild, Ne.symm hdc]
  | cons p rest ih =>
    obtain ⟨e, u⟩ := p
    by_cases h : e = c
    · subst h
      simp [updChildren, lookupChild, Ne.symm hdc]
    · by_cases h2 : e = d
      · subst h2
        simp [updChildren, lookupChild, h]
      · simp [updChildren, lookupChild, h, h2, ih]

theorem countAt_insert (v : List Char) : ∀ (t : Trie) (w : List Char),
    countAt (t.insert v) w = countAt t w + (if w = v then 1 else 0) := by
  induction v with
  | nil =>
    intro t w
    obtain ⟨n, cs⟩ := t
    cases w with
    | nil => simp [Trie.insert, insertW, countAt_nil, Trie.count, Trie.children]
    | cons d w' =>
      cases h : lookupChild cs d with
      | some u =>
        simp [Trie.insert, insertW, Trie.count, Trie.children, countAt_cons_some h]
      | none =>
        simp [Trie.insert, insertW, Trie.count, Trie.children, countAt_cons_none h]
  | cons c vr ih =>
    intro t w
    obtain ⟨n, cs⟩ := t
    cases w with
    | nil => simp [Trie.insert, insertW, countAt_nil, Trie.count, Trie.children]
    | cons d w' =>
      by_cases hdc : d = c
      · subst hdc
        have hup := lookupChild_upd_self cs d (insertW vr)
        have h1 : countAt (Trie.mk n (updChildren cs d (insertW vr))) (d :: w')
            = countAt (((lookupChild cs d).getD Trie.new).insert vr) w' := by
          rw [countAt_cons_some hup]
          rfl
        rw [show (Trie.mk n cs).insert (d :: vr) = Trie.mk n (updChildren cs d (insertW vr))
              from rfl, h1, ih]
        cases h : lookupChild cs d with
        | some u => simp [h, countAt_cons_some h]
        | none => simp [h, countAt_cons_none h, countAt_new]
      · have hup := lookupChild_upd_other cs (insertW vr) hdc
        have h1 : (Trie.mk n cs).insert (c :: vr) = Trie.mk n (updChildren cs c (insertW vr)) :=
          rfl
        rw [h1]
        cases h : lookupChild cs d with
        | some u =>
          rw [countAt_cons_some (hup.trans h), countAt_cons_some h]
          simp [hdc]
        | none =>
          rw [countAt_cons_none (hup.trans h), countAt_cons_none h]
          simp [hdc]

theorem countAt_foldl (ws : List (List Char)) : ∀ (t : Trie) (w : List Char),
    countAt (ws.foldl Trie.insert t) w = countAt t w + ws.count w := by
  induction ws with
  | nil => intro t w; simp
  | cons v vs ih =>
    intro t w
    simp only [List.foldl_cons, ih, countAt_insert, List.count_cons, beq_iff_eq]
    have h1 : (if w = v then 1 else 0) = (if v = w then 1 else 0) := by
      rcases eq_or_ne w v with h | h
      · subst h
        rfl
      · rw [if_neg h, if_neg (Ne.symm h)]
    rw [h1]
    omega

theorem countAt_build (ws : List (List Char)) (w : List Char) :
    countAt (buildTrie ws) w = ws.count w := by
  rw [buildTrie, countAt_foldl, countAt_new]
  omega

theorem search_iff_countAt (w : List Char) : ∀ t : Trie,
    t.search w = true ↔ 0 < countAt t w := by
  induction w with
  | nil =>
    intro t
    obtain ⟨n, cs⟩ := t
    cases n <;> simp [Trie.search, countAt_nil, Trie.count]
  | cons c rest ih =>
    intro t
    obtain ⟨n, cs⟩ := t
    cases h : lookupChild cs c with
    | some u =>
      rw [countAt_cons_some h]
      simpa [Trie.search, Trie.children, h] using ih u
    | none =>
      rw [countAt_cons_none h]
      simp [Trie.search, Trie.children, h]

theorem follow_append (p : List Char) : ∀ (t : Trie) (q : List Char),
    t.follow (p ++ q) = match t.follow p with
      | some m => m.follow q
      | none => none := by
  induction p with
  | nil => intro t q; simp [Trie.follow]
  | cons c p' ih =>
    intro t q
    obtain ⟨n, cs⟩ := t
    cases h : lookupChild cs c with
    | some u => simp [Trie.follow, Trie.children, h, ih]
    | none => simp [Trie.follow, Trie.children, h]

theorem follow_snoc {t : Trie} {p : List Char} {m : Trie} (hp : t.follow p = some m)
    {c : Char} {sub : Trie} (hc : lookupChild m.children c = some sub) :
    t.follow (p ++ [c]) = some sub := by
  rw [follow_append, hp]
  obtain ⟨n, cs⟩ := m
  simp only [Trie.children_mk] at hc
  simp [Trie.follow, hc]

theorem search_of_follow {t : Trie} {w : List Char} {m : Trie} (h : t.follow w = some m)
    (hc : 0 < m.count) : t.search w = true := by
  rw [search_iff_countAt, countAt, h]
  exact hc

theorem size_pos (t : Trie) : 0 < t.size := by
  obtain ⟨n, cs⟩ := t
  simp [Trie.size]

theorem mem_size {cs : List (Char × Trie)} {ch : Char} {sub : Trie} (h : (ch, sub) ∈ cs) :
    sub.size ≤ sizeChildren cs := by
  induction cs with
  | nil => cases h
  | cons p rest ih =>
    obtain ⟨d, u⟩ := p
    rcases List.mem_cons.1 h with h1 | h1
    · cases h1
      simp [sizeChildren]
    · calc sub.size ≤ sizeChildren rest := ih h1
        _ ≤ sizeChildren ((d, u) :: rest) := by simp [sizeChildren]

theorem lookup_mem {cs : List (Char × Trie)} {c : Char} {sub : Trie}
    (h : lookupChild cs c = some sub) : (c, sub) ∈ cs := by
  induction cs with
  | nil => simp [lookupChild] at h
  | cons p rest ih =>
    obtain ⟨d, u⟩ := p
    by_cases hdc : d = c
    · subst hdc
      simp [lookupChild] at h
      simp [h]
    · simp [lookupChild, hdc] at h
      exact List.mem_cons_of_mem _ (ih h)

theorem lookup_size {node : Trie} {c : Char} {sub : Trie}
    (h : lookupChild node.children c = some sub) : sub.size < node.size := by
  obtain ⟨n, cs⟩ := node
  simp only [Trie.children_mk] at h
  have := mem_size (lookup_mem h)
  simp only [Trie.size]
  omega

theorem mem_size_node {node : Trie} {ch : Char} {sub : Trie}
    (h : (ch, sub) ∈ node.children) : sub.size < node.size := by
  obtain ⟨n, cs⟩ := node
  simp only [Trie.children_mk] at h
  have := mem_size h
  simp only [Trie.size]
  omega

/-! Lemmas about the edit relation. -/

theorem EditsWithin.succ {n : Nat} {x y : List Char} (h : EditsWithin n x y) :
    EditsWithin (n + 1) x y := by
  induction h with
  | refl n w => exact .refl _ _
  | step s _ ih => exact .step s ih

theorem EditsWithin.mono {n m : Nat} {x y : List Char} (h : EditsWithin n x y)
    (hnm : n ≤ m) : EditsWithin m x y := by
  induction hnm with
  | refl => exact h
  | step _ ih => exact ih.succ

theorem EditsWithin.snoc {n : Nat} {x y z : List Char} (h : EditsWithin n x y)
    (s : EditStep y z) : EditsWithin (n + 1) x z := by
  induction h with
  | refl n w => exact .step s (.refl _ _)
  | step s0 _ ih => exact .step s0 (ih s)

theorem editStep_ins_end (p : List Char) (c : Char) : EditStep p (p ++ [c]) := by
  simpa using EditStep.ins p [] c

/-! Generic lemmas about the option-threading child fold. -/

theorem childFold_pres {σ : Type} (P : σ → Prop) (f : Char → Trie → σ → Option σ)
    (cs : List (Char × Trie))
    (hf : ∀ ch sub s r, (ch, sub) ∈ cs → P s → f ch sub s = some r → P r) :
    ∀ s r, childFold f cs s = some r → P s → P r := by
  induction cs with
  | nil =>
    intro s r h hP
    simp only [childFold, Option.some.injEq] at h
    exact h ▸ hP
  | cons p rest ih =>
    obtain ⟨ch, sub⟩ := p
    intro s r h hP
    simp only [childFold] at h
    cases hfs : f ch sub s with
    | none => rw [hfs] at h; cases h
    | some s2 =>
      rw [hfs] at h
      exact ih (fun ch' sub' s' r' hm => hf ch' sub' s' r' (List.mem_cons_of_mem _ hm)) s2 r h
        (hf ch sub s s2 (List.mem_cons_self _ _) hP hfs)

theorem childFold_isSome {σ : Type} (f : Char → Trie → σ → Option σ)
    (cs : List (Char × Trie))
    (hf : ∀ ch sub s, (ch, sub) ∈ cs → (f ch sub s).isSome = true) :
    ∀ s, (childFold f cs s).isSome = true := by
  induction cs with
  | nil => intro s; simp [childFold]
  | cons p rest ih =>
    obtain ⟨ch, sub⟩ := p
    intro s
    simp only [childFold]
    cases hfs : f ch sub s with
    | none =>
      have := hf ch sub s (List.mem_cons_self _ _)
      rw [hfs] at this
      cases this
    | some s2 =>
      exact ih (fun ch' sub' s' hm => hf ch' sub' s' (List.mem_cons_of_mem _ hm)) s2

/-! Fuel sufficiency: the recursion always terminates within
`node.size + to_go.length` nested calls, so the fuel chosen by
`check_spelling` never runs out. -/

theorem search_isSome (fuel : Nat) : ∀ (node : Trie) (to_go path : List Char) (k : Nat)
    (check : CheckResult), node.size + to_go.length < fuel →
    (search_with_k_edit fuel node to_go path k check).isSome = true := by
  induction fuel with
  | zero =>
    intro node to_go path k check h
    omega
  | succ fuel ih =>
    intro node to_go path k check h
    cases to_go with
    | nil =>
      simp only [List.length_nil] at h
      simp only [search_with_k_edit]
      split
      · simp
      · apply childFold_isSome
        intro ch sub s hm
        apply ih
        have := mem_size_node hm
        simp only [List.length_nil]
        omega
    | cons c rest =>
      simp only [List.length_cons] at h
      simp only [search_with_k_edit]
      have hfold : ∀ check3 : CheckResult,
          (childFold (fun ch sub acc =>
              match search_with_k_edit fuel sub (c :: rest) (path ++ [ch]) (k + 1) acc with
              | some mid => search_with_k_edit fuel sub rest (path ++ [ch]) (k + 1) mid
              | none => none)
            node.children check3).isSome = true := by
        intro check3
        apply childFold_isSome
        intro ch sub s hm
        have hsub := mem_size_node hm
        have hins : (search_with_k_edit fuel sub (c :: rest) (path ++ [ch]) (k + 1) s).isSome
            = true := by
          apply ih
          simp only [List.length_cons]
          omega
        obtain ⟨mid, hmid⟩ := Option.isSome_iff_exists.1 hins
        simp only [hmid]
        apply ih
        omega
      have hstep1 : ∀ check1 : CheckResult,
          (if check1.edit ≤ k then some check1
           else
            match search_with_k_edit fuel node rest path (k + 1) check1 with
            | none => none
            | some check2 =>
              match (match rest with
                     | [] => some check2
                     | c1 :: rest2 =>
                       match lookupChild node.children c1 with
                       | some sub =>
                         search_with_k_edit fuel sub (c :: rest2) (path ++ [c1]) (k + 1) check2
                       | none => some check2) with
              | none => none
              | some check3 =>
                childFold (fun ch sub acc =>
                    match search_with_k_edit fuel sub (c :: rest) (path ++ [ch]) (k + 1) acc with
                    | some mid => search_with_k_edit fuel sub rest (path ++ [ch]) (k + 1) mid
                    | none => none)
                  node.children check3).isSome = true := by
        intro check1
        by_cases hk : check1.edit ≤ k
        · simp [hk]
        · rw [if_neg hk]
          have hdel : (search_with_k_edit fuel node rest path (k + 1) check1).isSome = true := by
            apply ih
            omega
          obtain ⟨check2, hc2⟩ := Option.isSome_iff_exists.1 hdel
          simp only [hc2]
          cases rest with
          | nil =>
            exact hfold check2
          | cons c1 rest2 =>
            cases hl1 : lookupChild node.children c1 with
            | none =>
              simp only [hl1]
              exact hfold check2
            | some sub2 =>
              have h2 : (search_with_k_edit fuel sub2 (c :: rest2) (path ++ [c1]) (k + 1)
                  check2).isSome = true := by
                apply ih
                have := lookup_size hl1
                simp only [List.length_cons] at h ⊢
                omega
              obtain ⟨check3, hc3⟩ := Option.isSome_iff_exists.1 h2
              simp only [hl1, hc3]
              exact hfold check3
      cases hl : lookupChild node.children c with
      | none =>
        simp only [hl]
        exact hstep1 check
      | some sub =>
        have hex : (search_with_k_edit fuel sub rest (path ++ [c]) k check).isSome = true := by
          apply ih
          have := lookup_size hl
          omega
        obtain ⟨check1, hc1⟩ := Option.isSome_iff_exists.1 hex
        simp only [hl, hc1]
        exact hstep1 check1

/-! Lemmas about well-formedness. -/

theorem wf_child {node : Trie} (h : WF node) {ch : Char} {sub : Trie}
    (hm : (ch, sub) ∈ node.children) : WF sub := by
  cases h with
  | mk n cs _ hsub => exact hsub ch sub hm

theorem wf_lookup_of_mem {node : Trie} (h : WF node) {ch : Char} {sub : Trie}
    (hm : (ch, sub) ∈ node.children) : lookupChild node.children ch = some sub := by
  cases h with
  | mk n cs hnd hsub =>
    simp only [Trie.children_mk] at hm ⊢
    clear hsub
    induction cs with
    | nil => cases hm
    | cons p rest ih =>
      obtain ⟨d, u⟩ := p
      simp only [List.map_cons, List.nodup_cons] at hnd
      rcases List.mem_cons.1 hm with h1 | h1
      · cases h1
        simp [lookupChild]
      · have hdch : d ≠ ch := by
          intro he
          exact hnd.1 (he ▸ List.mem_map.2 ⟨(ch, sub), h1, rfl⟩)
        simp [lookupChild, hdch, ih hnd.2 h1]

theorem wf_follow {t : Trie} (h : WF t) : ∀ {p : List Char} {node : Trie},
    t.follow p = some node → WF node := by
  intro p
  induction p generalizing t with
  | nil =>
    intro node hf
    simp only [Trie.follow, Option.some.injEq] at hf
    exact hf ▸ h
  | cons c rest ih =>
    intro node hf
    obtain ⟨n, cs⟩ := t
    simp only [Trie.follow, Trie.children_mk] at hf
    cases hl : lookupChild cs c with
    | none => rw [hl] at hf; cases hf
    | some u =>
      rw [hl] at hf
      have hu : WF u := wf_child h (by simpa using lookup_mem hl)
      exact ih hu hf

theorem wf_new : WF Trie.new := by
  exact WF.mk 0 [] (by simp) (by intro ch sub h; cases h)

theorem keys_upd (cs : List (Char × Trie)) (c : Char) (f : Trie → Trie) :
    (updChildren cs c f).map Prod.fst =
      if c ∈ cs.map Prod.fst then cs.map Prod.fst else cs.map Prod.fst ++ [c] := by
  induction cs with
  | nil => simp [updChildren]
  | cons p rest ih =>
    obtain ⟨d, u⟩ := p
    by_cases h : d = c
    · subst h
      simp [updChildren]
    · simp only [updChildren, if_neg h, List.map_cons, ih]
      by_cases h2 : c ∈ rest.map Prod.fst
      · simp [h2, Ne.symm h]
      · simp [h2, Ne.symm h]

theorem mem_upd {cs : List (Char × Trie)} {c : Char} {f : Trie → Trie} {ch : Char} {sub : Trie}
    (hm : (ch, sub) ∈ updChildren cs c f) :
    (ch, sub) ∈ cs ∨ (ch = c ∧ sub = f ((lookupChild cs c).getD Trie.new)) := by
  induction cs with
  | nil =>
    simp only [updChildren, List.mem_singleton, Prod.mk.injEq] at hm
    right
    exact ⟨hm.1, by simp [lookupChild, hm.2]⟩
  | cons p rest ih =>
    obtain ⟨d, u⟩ := p
    by_cases h : d = c
    · simp only [updChildren, if_pos h] at hm
      rcases List.mem_cons.1 hm with h1 | h1
      · right
        rw [Prod.mk.injEq] at h1
        subst h
        exact ⟨h1.1, by simp [lookupChild, h1.2]⟩
      · left
        exact List.mem_cons_of_mem _ h1
    · simp only [updChildren, if_neg h] at hm
      rcases List.mem_cons.1 hm with h1 | h1
      · left
        simp [h1]
      · rcases ih h1 with h2 | h2
        · left
          exact List.mem_cons_of_mem _ h2
        · right
          simpa [lookupChild, h] using h2

theorem wf_insertW (v : List Char) : ∀ t : Trie, WF t → WF (insertW v t) := by
  induction v with
  | nil =>
    intro t h
    obtain ⟨n, cs⟩ := t
    cases h with
    | mk _ _ hnd hsub => exact WF.mk _ _ hnd hsub
  | cons c vr ih =>
    intro t h
    obtain ⟨n, cs⟩ := t
    cases h with
    | mk _ _ hnd hsub =>
      refine WF.mk _ _ ?_ ?_
      · rw [keys_upd, Trie.children_mk]
        by_cases h2 : c ∈ cs.map Prod.fst
        · rw [if_pos h2]
          exact hnd
        · rw [if_neg h2]
          refine hnd.append (by simp) ?_
          intro a ha hb
          rw [List.mem_singleton] at hb
          subst hb
          exact h2 ha
      · intro ch sub hm
        rcases mem_upd hm with h1 | ⟨h1, h2⟩
        · exact hsub ch sub h1
        · subst h2
          apply ih
          cases hl : lookupChild cs c with
          | some u => simpa [hl] using hsub c u (lookup_mem hl)
          | none => simpa [hl] using wf_new

theorem wf_insert {t : Trie} (h : WF t) (v : List Char) : WF (t.insert v) :=
  wf_insertW v t h

theorem wf_build (ws : List (List Char)) : WF (buildTrie ws) := by
  rw [buildTrie]
  have : ∀ t : Trie, WF t → WF (ws.foldl Trie.insert t) := by
    induction ws with
    | nil => intro t h; exact h
    | cons v vs ih => intro t h; exact ih _ (wf_insert h v)
  exact this _ wf_new

/-! Lemmas about the accumulator evolution relation. -/

theorem replaces_self (c : CheckResult) : Replaces c c :=
  ⟨Nat.le_refl _, Or.inl (Eq.refl c)⟩

theorem Replaces.trans {a b c : CheckResult} (h1 : Replaces a b) (h2 : Replaces b c) :
    Replaces a c := by
  obtain ⟨he1, h1⟩ := h1
  obtain ⟨he2, h2⟩ := h2
  refine ⟨le_trans he2 he1, ?_⟩
  rcases h2 with h2 | ⟨w, hw, hc, h2⟩
  · subst h2
    exact h1
  · rcases h1 with h1 | ⟨w', hw', hc', h1⟩
    · subst h1
      exact Or.inr ⟨w, hw, hc, h2⟩
    · refine Or.inr ⟨w, hw, hc, ?_⟩
      rcases h2 with h2 | ⟨h2, h3⟩
      · exact Or.inl (lt_of_lt_of_le h2 he1)
      · rcases h1 with h1 | ⟨h1, h4⟩
        · exact Or.inl (h2 ▸ h1)
        · exact Or.inr ⟨h2.trans h1, h4.trans h3⟩

/-! Accumulator evolution across any call of the search. -/

theorem search_replaces (fuel : Nat) : ∀ (node : Trie) (to_go path : List Char) (k : Nat)
    (check r : CheckResult),
    search_with_k_edit fuel node to_go path k check = some r → Replaces check r := by
  induction fuel with
  | zero =>
    intro node to_go path k check r h
    cases h
  | succ fuel ih =>
    intro node to_go path k check r h
    cases to_go with
    | nil =>
      simp only [search_with_k_edit] at h
      split at h
      · rename_i hacc
        rw [Option.some.injEq] at h
        subst h
        rcases hacc with ⟨h1, h2⟩ | ⟨h1, h2⟩
        · exact ⟨Nat.le_of_lt h1, Or.inr ⟨path, rfl, h2, Or.inl h1⟩⟩
        · exact ⟨Nat.le_of_eq h2, Or.inr ⟨path, rfl, Nat.lt_of_le_of_lt (Nat.zero_le _) h1,
            Or.inr ⟨h2, h1⟩⟩⟩
      · refine childFold_pres (Replaces check) _ node.children ?_ check r h (replaces_self check)
        intro ch sub s r' hm hP hf
        exact hP.trans (ih sub [] (path ++ [ch]) (k + 1) s r' hf)
    | cons c rest =>
      simp only [search_with_k_edit] at h
      have hrest : ∀ check1 : CheckResult, Replaces check check1 →
          (if check1.edit ≤ k then some check1
           else
            match search_with_k_edit fuel node rest path (k + 1) check1 with
            | none => none
            | some check2 =>
              match (match rest with
                     | [] => some check2
                     | c1 :: rest2 =>
                       match lookupChild node.children c1 with
                       | some sub =>
                         search_with_k_edit fuel sub (c :: rest2) (path ++ [c1]) (k + 1) check2
                       | none => some check2) with
              | none => none
              | some check3 =>
                childFold (fun ch sub acc =>
                    match search_with_k_edit fuel sub (c :: rest) (path ++ [ch]) (k + 1) acc with
                    | some mid => search_with_k_edit fuel sub rest (path ++ [ch]) (k + 1) mid
                    | none => none)
                  node.children check3) = some r → Replaces check r := by
        intro check1 hP1 h
        by_cases hk : check1.edit ≤ k
        · rw [if_pos hk, Option.some.injEq] at h
          subst h
          exact hP1
        · rw [if_neg hk] at h
          cases hd : search_with_k_edit fuel node rest path (k + 1) check1 with
          | none => rw [hd] at h; cases h
          | some check2 =>
            simp only [hd] at h
            have hP2 : Replaces check check2 := hP1.trans (ih _ _ _ _ _ _ hd)
            have hfold : ∀ check3 : CheckResult, Replaces check check3 →
                childFold (fun ch sub acc =>
                    match search_with_k_edit fuel sub (c :: rest) (path ++ [ch]) (k + 1) acc with
                    | some mid => search_with_k_edit fuel sub rest (path ++ [ch]) (k + 1) mid
                    | none => none)
                  node.children check3 = some r → Replaces check r := by
              intro check3 hP3 h
              refine childFold_pres (Replaces check) _ node.children ?_ check3 r h hP3
              intro ch sub s r' hm hP hf
              cases hmid : search_with_k_edit fuel sub (c :: rest) (path ++ [ch]) (k + 1) s with
              | none => rw [hmid] at hf; cases hf
              | some mid =>
                rw [hmid] at hf
                exact (hP.trans (ih _ _ _ _ _ _ hmid)).trans (ih _ _ _ _ _ _ hf)
            cases rest with
            | nil =>
              exact hfold check2 hP2 h
            | cons c1 rest2 =>
              cases hl1 : lookupChild node.children c1 with
              | none =>
                simp only [hl1] at h
                exact hfold check2 hP2 h
              | some sub2 =>
                simp only [hl1] at h
                cases hc3 : search_with_k_edit fuel sub2 (c :: rest2) (path ++ [c1]) (k + 1)
                    check2 with
                | none => rw [hc3] at h; cases h
                | some check3 =>
                  simp only [hc3] at h
                  exact hfold check3 (hP2.trans (ih _ _ _ _ _ _ hc3)) h
      cases hl : lookupChild node.children c with
      | none =>
        simp only [hl] at h
        exact hrest check (replaces_self check) h
      | some sub =>
        cases hc1 : search_with_k_edit fuel sub rest (path ++ [c]) k check with
        | none =>
          simp only [hl] at h
          rw [hc1] at h
          cases h
        | some check1 =>
          simp only [hl, hc1] at h
          exact hrest check1 (ih _ _ _ _ _ _ hc1) h

/-! Soundness of the search: any recorded word is a corpus word within the
edit budget of the query. -/

theorem search_sound (root : Trie) (query : List Char) (hwf : WF root) (fuel : Nat) :
    ∀ (node : Trie) (to_go path : List Char) (k : Nat) (check r : CheckResult),
      search_with_k_edit fuel node to_go path k check = some r →
      root.follow path = some node →
      EditsWithin k query (path ++ to_go) →
      Sound root query check →
      Sound root query r := by
  induction fuel with
  | zero =>
    intro node to_go path k check r h
    cases h
  | succ fuel ih =>
    intro node to_go path k check r h hfol hew hs
    cases to_go with
    | nil =>
      simp only [search_with_k_edit] at h
      split at h
      · rename_i hacc
        rw [Option.some.injEq] at h
        subst h
        have hke : k ≤ 2 := by
          rcases hacc with ⟨h1, _⟩ | ⟨_, h2⟩
          · exact Nat.le_of_lt (Nat.lt_of_lt_of_le h1 hs.1)
          · exact h2 ▸ hs.1
        refine ⟨hke, ?_⟩
        intro w hw
        replace hw : some path = some w := hw
        rw [Option.some.injEq] at hw
        subst hw
        have hcount : 0 < node.count := by
          rcases hacc with ⟨_, h2⟩ | ⟨h2, _⟩
          · exact h2
          · exact Nat.lt_of_le_of_lt (Nat.zero_le _) h2
        exact ⟨search_of_follow hfol hcount, by simpa using hew⟩
      · refine childFold_pres (Sound root query) _ node.children ?_ check r h hs
        intro ch sub s r' hm hP hf
        have hl := wf_lookup_of_mem (wf_follow hwf hfol) hm
        refine ih sub [] (path ++ [ch]) (k + 1) s r' hf (follow_snoc hfol hl) ?_ hP
        have hpth : EditsWithin k query path := by simpa using hew
        simpa using hpth.snoc (editStep_ins_end path ch)
    | cons c rest =>
      simp only [search_with_k_edit] at h
      have hrest : ∀ check1 : CheckResult, Sound root query check1 →
          (if check1.edit ≤ k then some check1
           else
            match search_with_k_edit fuel node rest path (k + 1) check1 with
            | none => none
            | some check2 =>
              match (match rest with
                     | [] => some check2
                     | c1 :: rest2 =>
                       match lookupChild node.children c1 with
                       | some sub =>
                         search_with_k_edit fuel sub (c :: rest2) (path ++ [c1]) (k + 1) check2
                       | none => some check2) with
              | none => none
              | some check3 =>
                childFold (fun ch sub acc =>
                    match search_with_k_edit fuel sub (c :: rest) (path ++ [ch]) (k + 1) acc with
                    | some mid => search_with_k_edit fuel sub rest (path ++ [ch]) (k + 1) mid
                    | none => none)
                  node.children check3) = some r → Sound root query r := by
        intro check1 hs1 h
        by_cases hk : check1.edit ≤ k
        · rw [if_pos hk, Option.some.injEq] at h
          subst h
          exact hs1
        · rw [if_neg hk] at h
          cases hd : search_with_k_edit fuel node rest path (k + 1) check1 with
          | none => rw [hd] at h; cases h
          | some check2 =>
            simp only [hd] at h
            have hs2 : Sound root query check2 :=
              ih node rest path (k + 1) check1 check2 hd hfol
                (hew.snoc (EditStep.del path rest c)) hs1
            have hfold : ∀ check3 : CheckResult, Sound root query check3 →
                childFold (fun ch sub acc =>
                    match search_with_k_edit fuel sub (c :: rest) (path ++ [ch]) (k + 1) acc with
                    | some mid => search_with_k_edit fuel sub rest (path ++ [ch]) (k + 1) mid
                    | none => none)
                  node.children check3 = some r → Sound root query r := by
              intro check3 hs3 h
              refine childFold_pres (Sound root query) _ node.children ?_ check3 r h hs3
              intro ch sub s r' hm hP hf
              have hl2 := wf_lookup_of_mem (wf_follow hwf hfol) hm
              have hfol2 := follow_snoc hfol hl2
              cases hmid : search_with_k_edit fuel sub (c :: rest) (path ++ [ch]) (k + 1) s with
              | none => rw [hmid] at hf; cases hf
              | some mid =>
                rw [hmid] at hf
                have hPmid : Sound root query mid :=
                  ih sub (c :: rest) (path ++ [ch]) (k + 1) s mid hmid hfol2
                    (by simpa using hew.snoc (EditStep.ins path (c :: rest) ch)) hP
                refine ih sub rest (path ++ [ch]) (k + 1) mid r' hf hfol2 ?_ hPmid
                by_cases hcc : ch = c
                · subst hcc
                  simpa using hew.succ
                · simpa using hew.snoc (EditStep.repl path rest c ch (Ne.symm hcc))
            cases rest with
            | nil =>
              exact hfold check2 hs2 h
            | cons c1 rest2 =>
              cases hl1 : lookupChild node.children c1 with
              | none =>
                simp only [hl1] at h
                exact hfold check2 hs2 h
              | some sub2 =>
                simp only [hl1] at h
                cases hc3 : search_with_k_edit fuel sub2 (c :: rest2) (path ++ [c1]) (k + 1)
                    check2 with
                | none => rw [hc3] at h; cases h
                | some check3 =>
                  simp only [hc3] at h
                  refine hfold check3 ?_ h
                  refine ih sub2 (c :: rest2) (path ++ [c1]) (k + 1) check2 check3 hc3
                    (follow_snoc hfol hl1) ?_ hs2
                  simpa using hew.snoc (EditStep.swap path rest2 c c1)
      cases hl : lookupChild node.children c with
      | none =>
        simp only [hl] at h
        exact hrest check hs h
      | some sub =>
        cases hc1 : search_with_k_edit fuel sub rest (path ++ [c]) k check with
        | none =>
          simp only [hl] at h
          rw [hc1] at h
          cases h
        | some check1 =>
          simp only [hl, hc1] at h
          refine hrest check1 ?_ h
          exact ih sub rest (path ++ [c]) k check check1 hc1 (follow_snoc hfol hl)
            (by simpa using hew) hs

/-! The exact-match dive: on a corpus word the search immediately finds the
word itself with 0 edits, and the pruning check then cuts off every other
branch on the way back up. -/

theorem search_exact_dive : ∀ (w : List Char) (fuel : Nat) (node : Trie) (path : List Char)
    (m : Trie), w.length < fuel → node.follow w = some m → 0 < m.count →
    search_with_k_edit fuel node w path 0 ⟨none, 0, 2⟩ =
      some ⟨some (path ++ w), m.count, 0⟩ := by
  intro w
  induction w with
  | nil =>
    intro fuel node path m hf hfol hc
    cases fuel with
    | zero => exact absurd hf (Nat.not_lt_zero _)
    | succ fuel =>
      simp only [Trie.follow, Option.some.injEq] at hfol
      subst hfol
      simp only [search_with_k_edit]
      split
      · simp
      · rename_i hno
        exact absurd (Or.inl ⟨by decide, hc⟩) hno
  | cons c w' ih =>
    intro fuel node path m hf hfol hc
    cases fuel with
    | zero => exact absurd hf (Nat.not_lt_zero _)
    | succ fuel =>
      obtain ⟨n, cs⟩ := node
      simp only [Trie.follow, Trie.children_mk] at hfol
      cases hl : lookupChild cs c with
      | none => rw [hl] at hfol; cases hfol
      | some sub =>
        rw [hl] at hfol
        have hlen : w'.length < fuel := by
          simp only [List.length_cons] at hf
          omega
        have hrec := ih fuel sub (path ++ [c]) m hlen hfol hc
        simp only [search_with_k_edit, Trie.children_mk, hl, hrec]
        simp [List.append_assoc]

/-! Bridges from the fuelled search to `check_spelling`. -/

theorem check_full_eq (trie : Trie) (word : List Char) :
    search_with_k_edit (searchFuel trie word) trie word [] 0 ⟨none, 0, 2⟩ =
      some (check_spelling_full trie word) := by
  have h := search_isSome (searchFuel trie word) trie word [] 0 ⟨none, 0, 2⟩
    (Nat.lt_succ_self _)
  obtain ⟨r, hr⟩ := Option.isSome_iff_exists.1 h
  rw [check_spelling_full, hr]
  simp

theorem check_spelling_sound_aux {trie : Trie} (hwf : WF trie) (word : List Char) :
    Sound trie word (check_spelling_full trie word) := by
  refine search_sound trie word hwf _ trie word [] 0 _ _ (check_full_eq trie word) rfl
    (EditsWithin.refl 0 word) ⟨by decide, ?_⟩
  intro w hw
  cases hw

/-! Claim theorems. -/

/-- C1: for every (well-formed, as every program-built trie is) trie and
every query word, if `check_spelling` returns `some r` then `r` is a corpus
word (terminal count positive, i.e. `Trie.search` succeeds) whose edit
distance from the query under insertion, deletion, substitution and
adjacent transposition is at most 2; and `check_spelling` returns `none`
whenever no corpus word is within 2 edits of the query. -/
theorem check_spelling_edit_budget (trie : Trie) (hwf : WF trie) (query : List Char) :
    (∀ r, check_spelling trie query = some r →
      trie.search r = true ∧ EditsWithin 2 query r) ∧
    ((∀ w, trie.search w = true → ¬EditsWithin 2 query w) →
      check_spelling trie query = none) := by
  constructor
  · intro r hr
    obtain ⟨he, hword⟩ := check_spelling_sound_aux hwf query
    have h := hword r hr
    exact ⟨h.1, h.2.mono he⟩
  · intro hnone
    cases hr : check_spelling trie query with
    | none => rfl
    | some r =>
      obtain ⟨he, hword⟩ := check_spelling_sound_aux hwf query
      have h := hword r hr
      exact absurd (h.2.mono he) (hnone r h.1)

/-- Witness for C1: on corpus "an" and query "na" the returned word "an"
is a corpus word within 2 edits; on an empty corpus no word is within 2
edits of "x" and the search returns none. -/
theorem check_spelling_edit_budget_witness :
    (trieAN.search ['a', 'n'] = true ∧ EditsWithin 2 ['n', 'a'] ['a', 'n']) ∧
    check_spelling Trie.new ['x'] = none := by
  constructor
  · exact (check_spelling_edit_budget trieAN (wf_build _) ['n', 'a']).1 ['a', 'n'] (by decide)
  · refine (check_spelling_edit_budget Trie.new (wf_build []) ['x']).2 ?_
    intro w hw hew
    cases w with
    | nil => simp [Trie.search, Trie.new] at hw
    | cons c cs => simp [Trie.search, Trie.new, lookupChild] at hw

/-- C2: the result is ranked by fewest edits first, then by higher terminal
frequency: with "ape" at frequency 1 and "apple" at frequency 2 (either
insertion order), query "aple" is corrected to "apple", found at edit
distance 1. -/
theorem frequency_tie_preference :
    countAt trieApe ['a', 'p', 'e'] = 1 ∧
    countAt trieApe ['a', 'p', 'p', 'l', 'e'] = 2 ∧
    check_spelling trieApe ['a', 'p', 'l', 'e'] = some ['a', 'p', 'p', 'l', 'e'] ∧
    (check_spelling_full trieApe ['a', 'p', 'l', 'e']).edit = 1 ∧
    check_spelling trieApe2 ['a', 'p', 'l', 'e'] = some ['a', 'p', 'p', 'l', 'e'] := by
  refine ⟨by decide, by decide, by decide, by decide, by decide⟩

/-- C3: every word inserted into a dictionary built from the empty trie is
found by the exact-match test, and `check_spelling` on that word returns
the word itself (the 0-edit exact match beats any edited alternative). -/
theorem exact_membership (ws : List (List Char)) (w : List Char) (hmem : w ∈ ws) :
    (buildTrie ws).search w = true ∧ check_spelling (buildTrie ws) w = some w := by
  have hcnt : 0 < countAt (buildTrie ws) w := by
    rw [countAt_build]
    exact List.count_pos_iff.2 hmem
  refine ⟨(search_iff_countAt w _).2 hcnt, ?_⟩
  obtain ⟨m, hfol, hc⟩ : ∃ m, (buildTrie ws).follow w = some m ∧ 0 < m.count := by
    cases hfol : (buildTrie ws).follow w with
    | none =>
      rw [countAt, hfol] at hcnt
      exact absurd hcnt (Nat.lt_irrefl 0)
    | some m =>
      rw [countAt, hfol] at hcnt
      exact ⟨m, rfl, hcnt⟩
  have hlen : w.length < searchFuel (buildTrie ws) w := by
    have h := size_pos (buildTrie ws)
    simp only [searchFuel]
    omega
  have hdive := search_exact_dive w (searchFuel (buildTrie ws) w) (buildTrie ws) [] m
    hlen hfol hc
  rw [check_spelling, check_spelling_full, hdive]
  simp

/-- Witness for C3: the word "an" inserted into an empty dictionary is an
exact member and corrects to itself. -/
theorem exact_membership_witness :
    (buildTrie [['a', 'n']]).search ['a', 'n'] = true ∧
    check_spelling (buildTrie [['a', 'n']]) ['a', 'n'] = some ['a', 'n'] :=
  exact_membership [['a', 'n']] ['a', 'n'] (by decide)

/-- C4: the terminal count at a word equals the number of times it was
inserted (interleaving with other words is irrelevant); each single insert
changes only the inserted word's terminal count, incrementing it by
exactly 1, and never resets a count; inserting the empty word increments
the root's count. -/
theorem frequency_accumulation :
    (∀ (t : Trie) (v w : List Char),
      countAt (t.insert v) w = countAt t w + (if w = v then 1 else 0)) ∧
    (∀ (ws : List (List Char)) (w : List Char), countAt (buildTrie ws) w = ws.count w) ∧
    (∀ t : Trie, countAt (t.insert []) [] = countAt t [] + 1) := by
  refine ⟨fun t v w => countAt_insert v t w, fun ws w => countAt_build ws w, fun t => ?_⟩
  rw [countAt_insert]
  simp

/-- C5: an adjacent transposition counts as a single edit: with corpus
consisting only of "an", query "na" is corrected to "an" and the final
accumulator records edit count 1 (not 2). -/
theorem transposition_one_edit :
    check_spelling trieAN ['n', 'a'] = some ['a', 'n'] ∧
    check_spelling_full trieAN ['n', 'a'] = ⟨some ['a', 'n'], 1, 1⟩ := by
  exact ⟨by decide, by decide⟩

/-- C6 counterexample: for the query word "-" with no correction available
(corpus "banana"), the rendered line is "-" rather than the claimed
"-, -": the code defaults the missing correction to "-" before comparing
it with the query word, so the comparison succeeds. -/
theorem render_dash_counterexample :
    check_spelling trieBanana ['-'] = none ∧
    write_correct_words [['-']] trieBanana = ['-', '\n'] ∧
    write_correct_words [['-']] trieBanana ≠ ['-', ',', ' ', '-', '\n'] := by
  exact ⟨by decide, by decide, by decide⟩

/-- C6 (amended): the rendered line is `w` when the result equals `w`, and
also when the result is absent and `w` is itself "-" (the default marker
collides with the word); it is `w, r` for a present result `r ≠ w`, and
`w, -` when the result is absent and `w ≠ "-"`. -/
theorem render_characterization (w : List Char) (r : Option (List Char)) :
    render_pair w r =
      if r = some w then w
      else if r = none ∧ w = ['-'] then w
      else w ++ [',', ' '] ++ r.getD ['-'] := by
  cases r with
  | none =>
    by_cases hw : w = ['-']
    · subst hw
      simp [render_pair]
    · simp [render_pair, hw, Ne.symm hw]
  | some u =>
    by_cases hu : u = w
    · subst hu
      simp [render_pair]
    · simp [render_pair, hu]

/-- C7: pruning: at a state with a non-empty remaining suffix, once the
spent edit count `k` is at least the current best edit count (as updated by
the exact-match branch, which precedes the check), none of the edit
branches is explored: the call returns exactly the accumulator produced by
the exact-match branch alone. -/
theorem pruning_exact_only (fuel : Nat) (node : Trie) (c : Char) (rest path : List Char)
    (k : Nat) (check check1 : CheckResult)
    (hexact : (match lookupChild node.children c with
               | some sub => search_with_k_edit fuel sub rest (path ++ [c]) k check
               | none => some check) = some check1)
    (hk : check1.edit ≤ k) :
    search_with_k_edit (fuel + 1) node (c :: rest) path k check = some check1 := by
  cases hl : lookupChild node.children c with
  | none =>
    replace hexact : check = check1 := by
      rw [hl] at hexact
      exact Option.some.inj hexact
    subst hexact
    simp only [search_with_k_edit, hl, if_pos hk]
  | some sub =>
    replace hexact : search_with_k_edit fuel sub rest (path ++ [c]) k check = some check1 := by
      rw [hl] at hexact
      exact hexact
    simp only [search_with_k_edit, hl, hexact, if_pos hk]

/-- Witness for C7: with best edit count already 0 and no exact child for
the first query character, a pruned call returns the accumulator
untouched. -/
theorem pruning_exact_only_witness :
    search_with_k_edit 6 trieAN ['n', 'a'] [] 0 ⟨some [], 0, 0⟩ = some ⟨some [], 0, 0⟩ :=
  pruning_exact_only 5 trieAN 'n' ['a'] [] 0 ⟨some [], 0, 0⟩ ⟨some [], 0, 0⟩ (by decide)
    (by decide)

/-- C8 counterexample: the trailing-insertion extension is not cut off by
the edit budget: on corpus "aaa" and the empty query, the instrumented
search enters states with edit counts 0, 1, 2 and then 3, although the
budget is 2 (and, consistently, nothing is recorded). -/
theorem base_extension_counterexample :
    search_with_k_edit_klog (searchFuel trieAAA []) trieAAA [] [] 0 (⟨none, 0, 2⟩, []) =
      some (⟨none, 0, 2⟩, [0, 1, 2, 3]) ∧
    check_spelling trieAAA [] = none := by
  exact ⟨by decide, by decide⟩

/-- C8 (amended): in the base case, when the current node is not accepted
as the new best, the search recurses into every child edge with the
still-empty suffix and edit count `k + 1`; this extension carries no budget
check (it recurses regardless of `k`), but it is bounded by the budget in
effect: the resulting best edit count never exceeds the incoming one. -/
theorem base_extension_behavior (fuel : Nat) (node : Trie) (path : List Char) (k : Nat)
    (check : CheckResult)
    (hno : ¬((k < check.edit ∧ 0 < node.count) ∨ (check.count < node.count ∧ k = check.edit))) :
    search_with_k_edit (fuel + 1) node [] path k check =
      childFold (fun ch sub acc => search_with_k_edit fuel sub [] (path ++ [ch]) (k + 1) acc)
        node.children check ∧
    ∀ r, search_with_k_edit (fuel + 1) node [] path k check = some r →
      r.edit ≤ check.edit := by
  constructor
  · simp only [search_with_k_edit, if_neg hno]
  · intro r hr
    exact (search_replaces (fuel + 1) node [] path k check r hr).1

/-- Witness for C8's amended theorem: at the root of the "aaa" corpus with
the empty query nothing is accepted, and the call is exactly the insertion
fold over the children. -/
theorem base_extension_behavior_witness :
    search_with_k_edit 5 trieAAA [] [] 0 ⟨none, 0, 2⟩ =
      childFold (fun ch sub acc => search_with_k_edit 4 sub [] ([] ++ [ch]) (0 + 1) acc)
        trieAAA.children ⟨none, 0, 2⟩ :=
  (base_extension_behavior 4 trieAAA [] 0 ⟨none, 0, 2⟩ (by decide)).1

/-- C9: the bounded-edit search terminates: with fuel exceeding the trie
size plus the suffix length the fuelled recursion always produces a result
(never runs out), in particular with the fuel `check_spelling` uses, so
`check_spelling` is total. -/
theorem search_terminates (fuel : Nat) (node : Trie) (to_go path : List Char) (k : Nat)
    (check : CheckResult) (h : node.size + to_go.length < fuel) :
    (search_with_k_edit fuel node to_go path k check).isSome = true ∧
    (search_with_k_edit (searchFuel node to_go) node to_go path k check).isSome = true := by
  refine ⟨search_isSome fuel node to_go path k check h, ?_⟩
  exact search_isSome _ node to_go path k check (Nat.lt_succ_self _)

/-- Witness for C9: on corpus "an" and query "na" the search returns. -/
theorem search_terminates_witness :
    (search_with_k_edit 6 trieAN ['n', 'a'] [] 0 ⟨none, 0, 2⟩).isSome = true ∧
    (search_with_k_edit (searchFuel trieAN ['n', 'a']) trieAN ['n', 'a'] []
      0 ⟨none, 0, 2⟩).isSome = true :=
  search_terminates 6 trieAN ['n', 'a'] [] 0 ⟨none, 0, 2⟩ (by decide)

/-- C10: across any call of the search the accumulator's best edit count
never increases (hence stays at most its initial value 2 throughout a
`check_spelling` invocation), the record is only ever replaced by a
candidate with strictly fewer edits or with equal edits and strictly
greater terminal count, and consequently any word `check_spelling` returns
was recorded with edit count at most 2 and positive terminal count. -/
theorem accumulator_invariant (fuel : Nat) (node : Trie) (to_go path : List Char) (k : Nat)
    (check r : CheckResult) (h : search_with_k_edit fuel node to_go path k check = some r) :
    Replaces check r ∧
    ∀ (trie : Trie) (query : List Char),
      (check_spelling_full trie query).edit ≤ 2 ∧
      (∀ w, check_spelling trie query = some w → 0 < (check_spelling_full trie query).count) := by
  refine ⟨search_replaces fuel node to_go path k check r h, ?_⟩
  intro trie query
  have hrep : Replaces ⟨none, 0, 2⟩ (check_spelling_full trie query) :=
    search_replaces _ _ _ _ _ _ _ (check_full_eq trie query)
  refine ⟨hrep.1, ?_⟩
  intro w hw
  rcases hrep.2 with heq | ⟨w', hw', hc, _⟩
  · replace hw : (check_spelling_full trie query).word = some w := hw
    rw [heq] at hw
    cases hw
  · exact hc

/-- Witness for C10: the full run on corpus "an", query "na" evolves the
initial accumulator into the record for "an" at 1 edit. -/
theorem accumulator_invariant_witness :
    Replaces ⟨none, 0, 2⟩ ⟨some ['a', 'n'], 1, 1⟩ :=
  (accumulator_invariant 6 trieAN ['n', 'a'] [] 0 ⟨none, 0, 2⟩ ⟨some ['a', 'n'], 1, 1⟩
    (by decide)).1

end Spell
